import Mathlib

/-!
Shallow embedding of `spec_advance` (src/ANNOTATED_spec_advance.c) and of the
external helpers it calls, together with proofs of the specification claims.

The per-particle pusher arithmetic is modelled over the real numbers; the
current depositor and the boundary pass, which use only field operations and
integer comparisons, are modelled generically over an ordered field so that
concrete witnesses can be evaluated over the rationals.
-/

set_option maxHeartbeats 1000000

/-- Three-component vector, mirroring the C `float3` struct. -/
structure float3 (α : Type) where
  x : α
  y : α
  z : α
deriving DecidableEq

/-- One macro-particle, mirroring the C particle struct used by
`spec_advance`: cell index `ix`, in-cell offset `x`, momentum `ux uy uz`. -/
structure t_part (α : Type) where
  ix : ℤ
  x : α
  ux : α
  uy : α
  uz : α
deriving DecidableEq

/-- Boundary-condition kind for a species: periodic or open/absorbing,
mirroring the C constants tested at line 208 of the source. -/
inductive t_part_bc : Type where
  | PART_BC_PERIODIC : t_part_bc
  | PART_BC_OPEN : t_part_bc
deriving DecidableEq

/-- Species state, mirroring the fields of the C `t_species` that
`spec_advance` reads and writes: the particle list (live particles,
`np = part.length`), charge `q`, the scalar parameter `m_q`, time step `dt`,
cell size `dx`, cell count `nx`, moving-window flag, boundary-condition kind,
sort period `n_sort`, iteration counter `iter` and stored energy. -/
structure t_species where
  part : List (t_part ℝ)
  q : ℝ
  m_q : ℝ
  dt : ℝ
  dx : ℝ
  nx : ℤ
  moving_window : Bool
  bc_type : t_part_bc
  n_sort : ℤ
  iter : ℤ
  energy : ℝ

/-- The half-step coefficient of line 22 of the source:
`tem = 0.5 * spec->dt / spec->m_q` (the C expression parses as
`(0.5 * dt) / m_q`). -/
def temCoef {α : Type} [Field α] (dt m_q : α) : α :=
  1 / 2 * dt / m_q

/-- Modelled from the spec: the helper `ltrim` is called at line 140 of the
source but its body is not part of this repository.  Per spec section 4.2 it
returns the signed whole-cell delta that normalizes a tentative offset back
into the canonical half-open range, taken here as `[-1/2, 1/2)` following the
spec's data model; so `ltrim x` is the unique integer with
`x - ltrim x ∈ [-1/2, 1/2)`. -/
def ltrim {α : Type} [LinearOrderedField α] [FloorRing α] (x : α) : ℤ :=
  ⌊x + 1 / 2⌋

/-- Additive scatter-write of one vector into one cell of the current grid,
the `J[c] += v` pattern of the deposition comments at lines 168-172. -/
def addJ {α : Type} [Field α] (J : ℤ → float3 α) (c : ℤ) (v : float3 α) :
    ℤ → float3 α :=
  fun c2 =>
    if c2 = c then ⟨(J c2).x + v.x, (J c2).y + v.y, (J c2).z + v.z⟩ else J c2

/-- Virtual (sub-segment) particle used by the depositor: start offset `x0`,
end offset `x1`, local displacement `dx`, charge-weighted transverse
velocities `qvy qvz`, home cell `ix`. -/
structure t_vp (α : Type) where
  x0 : α
  x1 : α
  dx : α
  qvy : α
  qvz : α
  ix : ℤ

/-- Modelled from the spec: single-cell deposition step of
`dep_current_zamb` (spec section 4.3; the function body is not part of this
repository, only its call at line 180 and its write pattern at lines
168-172).  The longitudinal contribution `qnx * dx` is written once to the
home cell `ix`; the transverse contributions are linearly split between `ix`
and `ix + 1` with the sub-segment's average in-cell offset as area weight. -/
def depositVp {α : Type} [Field α] (qnx : α) (J : ℤ → float3 α) (vp : t_vp α) :
    ℤ → float3 α :=
  let wl1 := qnx * vp.dx
  let xavg := (vp.x0 + vp.x1) / 2
  let wp0 := 1 / 2 - xavg
  let wp1 := 1 / 2 + xavg
  addJ (addJ J vp.ix ⟨wl1, vp.qvy * wp0, vp.qvz * wp0⟩)
    (vp.ix + 1) ⟨0, vp.qvy * wp1, vp.qvz * wp1⟩

/-- Modelled from the spec: `dep_current_zamb` (spec section 4.3; the body is
not part of this repository).  A particle moves from offset `x` in cell `ix`
to offset `x + dx - di` in cell `ix + di`.  If `di = 0` the whole trajectory
is one virtual particle; if `di ≠ 0` the trajectory is split at the crossed
cell boundary `di/2` into two sub-segments, each confined to one cell, with
the transverse charge-weighted velocities shared in proportion to each
sub-segment's share `delta` of the displacement, and the single-cell
deposition applied to each sub-segment in turn. -/
def dep_current_zamb {α : Type} [Field α] (ix di : ℤ) (x dx qnx qvy qvz : α)
    (J : ℤ → float3 α) : ℤ → float3 α :=
  let vps : List (t_vp α) :=
    if di = 0 then
      [{ x0 := x, x1 := x + dx, dx := dx, qvy := qvy, qvz := qvz, ix := ix }]
    else
      let b : α := (di : α) / 2
      let x1f : α := x + dx - (di : α)
      let dx0 : α := b - x
      let dx1 : α := x1f + b
      let delta : α := dx0 / dx
      [{ x0 := x, x1 := b, dx := dx0,
         qvy := qvy * delta, qvz := qvz * delta, ix := ix },
       { x0 := -b, x1 := x1f, dx := dx1,
         qvy := qvy * (1 - delta), qvz := qvz * (1 - delta), ix := ix + di }]
  vps.foldl (depositVp qnx) J

/-- Momentum after the half electric acceleration of lines 73-79:
`ut = u + tem*E` (the code scales `Ep` by `tem` and adds it). -/
def utOf (tem : ℝ) (E u : float3 ℝ) : float3 ℝ :=
  ⟨u.x + E.x * tem, u.y + E.y * tem, u.z + E.z * tem⟩

/-- Squared magnitude `u2 = utx*utx + uty*uty + utz*utz` of line 83. -/
def u2Of (tem : ℝ) (E u : float3 ℝ) : ℝ :=
  (utOf tem E u).x * (utOf tem E u).x + (utOf tem E u).y * (utOf tem E u).y +
    (utOf tem E u).z * (utOf tem E u).z

/-- Relativistic factor `gamma = sqrtf(1 + u2)` of line 84. -/
noncomputable def gammaOf (tem : ℝ) (E u : float3 ℝ) : ℝ :=
  Real.sqrt (1 + u2Of tem E u)

/-- Per-particle kinetic-energy contribution `u2 / (1 + gamma)` of line 90. -/
noncomputable def etermOf (tem : ℝ) (E u : float3 ℝ) : ℝ :=
  u2Of tem E u / (1 + gammaOf tem E u)

/-- The two-cross-product Boris rotation of lines 100-114: given the
half-accelerated momentum `ut` and the scaled magnetic field `Bp`, compute
`otsq = 2 / (1 + |Bp|^2)`, the first rotated vector `u + ut x Bp`, rescale
`Bp` by `otsq` and add the second cross product. -/
noncomputable def borisRot (ut Bp : float3 ℝ) : float3 ℝ :=
  let otsq : ℝ := 2 / (1 + Bp.x * Bp.x + Bp.y * Bp.y + Bp.z * Bp.z)
  let ux : ℝ := ut.x + ut.y * Bp.z - ut.z * Bp.y
  let uy : ℝ := ut.y + ut.z * Bp.x - ut.x * Bp.z
  let uz : ℝ := ut.z + ut.x * Bp.y - ut.y * Bp.x
  let B2x : ℝ := Bp.x * otsq
  let B2y : ℝ := Bp.y * otsq
  let B2z : ℝ := Bp.z * otsq
  ⟨ut.x + uy * B2z - uz * B2y,
   ut.y + uz * B2x - ux * B2z,
   ut.z + ux * B2y - uy * B2x⟩

/-- Full momentum update of lines 73-120: half electric acceleration, Boris
rotation with `Bp` scaled by `gtem = tem / gamma`, final half electric
acceleration. -/
noncomputable def pushMomentum (tem : ℝ) (E B u : float3 ℝ) : float3 ℝ :=
  let Ep : float3 ℝ := ⟨E.x * tem, E.y * tem, E.z * tem⟩
  let ut : float3 ℝ := ⟨u.x + Ep.x, u.y + Ep.y, u.z + Ep.z⟩
  let gtem : ℝ := tem / gammaOf tem E u
  let Bp : float3 ℝ := ⟨B.x * gtem, B.y * gtem, B.z * gtem⟩
  let uf := borisRot ut Bp
  ⟨uf.x + Ep.x, uf.y + Ep.y, uf.z + Ep.z⟩

/-- Result of one iteration of the main particle loop: the updated particle,
the cell delta `di` and displacement `dx` of lines 131-141, the energy
contribution of line 90, and the updated current grid. -/
structure t_step where
  p2 : t_part ℝ
  di : ℤ
  dx : ℝ
  eterm : ℝ
  J2 : ℤ → float3 ℝ

/-- Body of the main particle loop, lines 47-189 of the source: interpolate
the fields (the external `interpolate_fld`, passed in as `fld`), push the
momentum, accumulate the energy term, compute `rg`, `dx`, `x1`, `di`, the
charge-weighted transverse velocities, deposit the current, and store the
new position and cell index. -/
noncomputable def pushStep (tem dt_dx q qnx : ℝ)
    (fld : t_part ℝ → float3 ℝ × float3 ℝ) (J : ℤ → float3 ℝ) (p : t_part ℝ) :
    t_step :=
  let Ef := (fld p).1
  let Bf := (fld p).2
  let u : float3 ℝ := ⟨p.ux, p.uy, p.uz⟩
  let unew := pushMomentum tem Ef Bf u
  let rg : ℝ := 1 / Real.sqrt (1 + unew.x * unew.x + unew.y * unew.y +
    unew.z * unew.z)
  let dx : ℝ := dt_dx * rg * unew.x
  let x1 : ℝ := p.x + dx
  let di : ℤ := ltrim x1
  let qvy : ℝ := q * unew.y * rg
  let qvz : ℝ := q * unew.z * rg
  { p2 := { ix := p.ix + di, x := x1 - (di : ℝ),
            ux := unew.x, uy := unew.y, uz := unew.z },
    di := di, dx := dx, eterm := etermOf tem Ef u,
    J2 := dep_current_zamb p.ix di p.x dx qnx qvy qvz J }

/-- The main particle loop of lines 47-190: process the particles in order,
threading the current grid and the energy accumulator through the list. -/
noncomputable def advanceLoop (tem dt_dx q qnx : ℝ)
    (fld : t_part ℝ → float3 ℝ × float3 ℝ) :
    List (t_part ℝ) → (ℤ → float3 ℝ) → ℝ →
      List (t_part ℝ) × (ℤ → float3 ℝ) × ℝ
  | [], J, en => ([], J, en)
  | p :: ps, J, en =>
      let r := pushStep tem dt_dx q qnx fld J p
      let rest := advanceLoop tem dt_dx q qnx fld ps r.J2 (en + r.eterm)
      (r.p2 :: rest.1, rest.2)

/-- The in-domain test of line 219, negated: a particle survives the
absorbing scan when `!(ix < 0 || ix >= nx0)`. -/
def insideBox {α : Type} (nx0 : ℤ) (p : t_part α) : Bool :=
  !(decide (p.ix < 0) || decide (nx0 ≤ p.ix))

/-- The absorbing-boundary compaction loop of lines 217-224: scan from slot
`i`; an out-of-domain particle is replaced in place by the particle in the
last live slot and the live count shrinks by one without advancing the scan;
otherwise the scan advances.  The list models exactly the live slots
`part[0 .. np)`, so the swap-with-last is `set i (getLast)` followed by
`dropLast`.  Termination mirrors the loop variant `np - i`. -/
def absorbScan {β : Type} (keep : β → Bool) (l : List β) (i : ℕ) : List β :=
  if h : i < l.length then
    if keep (l.get ⟨i, h⟩) then
      absorbScan keep l (i + 1)
    else
      absorbScan keep
        ((l.set i (l.getLast (List.length_pos.mp
          (Nat.lt_of_le_of_lt (Nat.zero_le i) h)))).dropLast) i
  else l
termination_by l.length - i
decreasing_by
  · omega
  · simp only [List.length_dropLast, List.length_set]
    omega

/-- One iteration of the absorbing-boundary compaction loop of lines
217-224, acting on the pair (live particle list, scan position). -/
def absorbStep {β : Type} (keep : β → Bool) (st : List β × ℕ) : List β × ℕ :=
  if h : st.2 < st.1.length then
    if keep (st.1.get ⟨st.2, h⟩) then (st.1, st.2 + 1)
    else
      ((st.1.set st.2 (st.1.getLast (List.length_pos.mp
        (Nat.lt_of_le_of_lt (Nat.zero_le st.2) h)))).dropLast, st.2)
  else st

/-- The periodic wrap of lines 230-233, applied to one particle:
`ix += (ix < 0 ? nx0 : 0) - (ix >= nx0 ? nx0 : 0)`. -/
def periodicOne {α : Type} (nx0 : ℤ) (p : t_part α) : t_part α :=
  { p with ix := p.ix + (if p.ix < 0 then nx0 else 0)
      - (if nx0 ≤ p.ix then nx0 else 0) }

/-- The boundary block of lines 206-234: if the moving-window flag is set or
the boundary kind is open, optionally apply the external window shifter
(`spec_move_window`, passed in as `move_window_fn` and modelled as a
transform of the particle list) and run the absorbing compaction scan from
slot 0; otherwise apply the periodic wrap to every particle. -/
def boundary_pass {α : Type} (move_window_fn : List (t_part α) → List (t_part α))
    (moving_window : Bool) (bc_type : t_part_bc) (nx0 : ℤ)
    (part : List (t_part α)) : List (t_part α) :=
  if moving_window || decide (bc_type = t_part_bc.PART_BC_OPEN) then
    absorbScan (insideBox nx0)
      (if moving_window then move_window_fn part else part) 0
  else
    part.map (periodicOne nx0)

/-- The whole of `spec_advance` (lines 15-246), with the external
collaborators `spec_move_window` and `spec_sort` passed in as particle-list
transforms and `interpolate_fld` passed in as a per-particle field sample.
Timing diagnostics, which touch no species or grid state, are omitted.
Returns the updated species and the updated current grid. -/
noncomputable def spec_advance
    (move_window_fn sort_fn : List (t_part ℝ) → List (t_part ℝ))
    (s : t_species) (fld : t_part ℝ → float3 ℝ × float3 ℝ)
    (J : ℤ → float3 ℝ) : t_species × (ℤ → float3 ℝ) :=
  let tem : ℝ := temCoef s.dt s.m_q
  let dt_dx : ℝ := s.dt / s.dx
  let qnx : ℝ := s.q * s.dx / s.dt
  let nx0 : ℤ := s.nx
  let r := advanceLoop tem dt_dx s.q qnx fld s.part J 0
  let energy : ℝ := s.q * s.m_q * r.2.2 * s.dx
  let iter : ℤ := s.iter + 1
  let part1 := boundary_pass move_window_fn s.moving_window s.bc_type nx0 r.1
  let part2 := if 0 < s.n_sort ∧ iter % s.n_sort = 0 then sort_fn part1
    else part1
  ({ s with part := part2, energy := energy, iter := iter }, r.2.1)

/-- Euclidean magnitude of a momentum vector, for the norm-preservation
claim. -/
noncomputable def norm3 (v : float3 ℝ) : ℝ :=
  Real.sqrt (v.x * v.x + v.y * v.y + v.z * v.z)

/-! ## Helper lemmas -/

theorem addJ_eval_same {α : Type} [Field α] (J : ℤ → float3 α) (c : ℤ)
    (v : float3 α) : addJ J c v c = ⟨(J c).x + v.x, (J c).y + v.y, (J c).z + v.z⟩ := by
  simp [addJ]

theorem addJ_eval_other {α : Type} [Field α] (J : ℤ → float3 α) (c c2 : ℤ)
    (v : float3 α) (h : c2 ≠ c) : addJ J c v c2 = J c2 := by
  simp [addJ, h]

/-! ## Claim theorems -/

/-- C6 counterexample: with the spec's reading of `m_q` as the charge-to-mass
ratio, `tem = 0.5 * dt * m_q` fails at `dt = 1`, `m_q = 2`: the code computes
`0.5 * 1 / 2 = 1/4`, not `0.5 * 1 * 2 = 1`. -/
theorem claim_C6_counterexample :
    ¬ (temCoef (1 : ℚ) 2 = 1 / 2 * 1 * 2) := by
  norm_num [temCoef]

/-- C6 (amended): the half-step coefficient `tem` of line 22 equals half the
species' time step divided by the scalar parameter `m_q` (so it equals
`0.5 * dt * (q/m)` exactly when `m_q` denotes the mass-to-charge ratio
`m/q`, not the charge-to-mass ratio). -/
theorem claim_C6_tem_is_half_dt_div_mq {α : Type} [Field α] (dt m_q : α)
    (h : m_q ≠ 0) : temCoef dt m_q * m_q = 1 / 2 * dt := by
  unfold temCoef
  exact div_mul_cancel₀ _ h

/-- C6 witness: the amended statement at `dt = 2`, `m_q = 4`. -/
theorem claim_C6_witness :
    ((4 : ℚ) ≠ 0) ∧ temCoef (2 : ℚ) 4 * 4 = 1 / 2 * 2 :=
  ⟨by norm_num, claim_C6_tem_is_half_dt_div_mq (2 : ℚ) 4 (by norm_num)⟩

/-- C8: the per-particle kinetic-energy term of lines 83-90 is well defined
and non-negative for every field sample and momentum: `u2 >= 0`, the sqrt
argument `1 + u2 >= 1`, the divisor `1 + gamma >= 2`, and the term itself is
`>= 0`. -/
theorem claim_C8_energy_term_wellposed (tem : ℝ) (E u : float3 ℝ) :
    0 ≤ u2Of tem E u ∧ (1 : ℝ) ≤ 1 + u2Of tem E u ∧
      (2 : ℝ) ≤ 1 + gammaOf tem E u ∧ 0 ≤ etermOf tem E u := by
  have hx := mul_self_nonneg (utOf tem E u).x
  have hy := mul_self_nonneg (utOf tem E u).y
  have hz := mul_self_nonneg (utOf tem E u).z
  have h0 : 0 ≤ u2Of tem E u := by unfold u2Of; linarith
  have h1 : (1 : ℝ) ≤ 1 + u2Of tem E u := by linarith
  have hg : (1 : ℝ) ≤ gammaOf tem E u := Real.one_le_sqrt.mpr h1
  exact ⟨h0, h1, by linarith, div_nonneg h0 (by linarith)⟩

/-- C1: for a trajectory that crosses exactly one cell boundary
(`di = 1` or `di = -1`), the two sub-segment longitudinal contributions
written by `dep_current_zamb` to cells `ix` and `ix + di` sum to
`qnx * dx`, which is exactly the single longitudinal contribution the
undivided (`di = 0`) deposition writes to cell `ix`; the injected current is
independent of the split. -/
theorem claim_C1_charge_conservation_crossing {α : Type}
    [LinearOrderedField α] (ix di : ℤ) (x dx qnx qvy qvz : α)
    (J : ℤ → float3 α) (h : di = 1 ∨ di = -1) :
    ((dep_current_zamb ix di x dx qnx qvy qvz J ix).x - (J ix).x) +
        ((dep_current_zamb ix di x dx qnx qvy qvz J (ix + di)).x -
          (J (ix + di)).x) = qnx * dx ∧
      (dep_current_zamb ix 0 x dx qnx qvy qvz J ix).x - (J ix).x =
        qnx * dx := by
  constructor
  · rcases h with h | h <;> subst h <;>
      simp [dep_current_zamb, depositVp, addJ, List.foldl,
        (by omega : ¬ ((ix : ℤ) = ix + 1)),
        (by omega : ¬ ((ix : ℤ) = ix + 1 + 1)),
        (by omega : ¬ ((ix : ℤ) = ix + 2)),
        (by omega : ¬ ((ix : ℤ) = 2 + ix)),
        (by omega : ¬ ((ix : ℤ) = 1 + ix)),
        (by omega : ¬ ((ix : ℤ) + 1 = ix + 1 + 1)),
        (by omega : ¬ ((ix : ℤ) + 1 = ix + 2)),
        (by omega : ¬ ((ix : ℤ) + 1 = 2 + ix)),
        (by omega : ¬ ((ix : ℤ) + 1 = ix)),
        (by omega : ¬ ((ix : ℤ) = ix + -1)),
        (by omega : ¬ ((ix : ℤ) = ix - 1)),
        (by omega : ¬ ((ix : ℤ) = -1 + ix)),
        (by omega : ¬ ((ix : ℤ) + -1 = ix + -1 + 1)),
        (by omega : ¬ ((ix : ℤ) + -1 = ix + 1)),
        (by omega : ¬ ((ix : ℤ) + -1 = ix)),
        (by omega : ¬ ((ix : ℤ) - 1 = ix + 1)),
        (by omega : ¬ ((ix : ℤ) - 1 = 1 + ix)),
        (by omega : ¬ ((ix : ℤ) - 1 = ix)),
        (by omega : ¬ ((-1 : ℤ) + ix = ix)),
        (by omega : ¬ ((-1 : ℤ) + ix = ix + 1)),
        (by omega : ¬ ((-1 : ℤ) + ix = 1 + ix))] <;>
      (try split) <;> (try omega) <;> (try simp) <;> (try ring)
  · simp [dep_current_zamb, depositVp, addJ, List.foldl,
      (by omega : ¬ ((ix : ℤ) = ix + 1))]
    try ring

/-- C1 witness: the crossing case at `di = 1` with concrete rational data. -/
theorem claim_C1_witness :
    ((1 : ℤ) = 1 ∨ (1 : ℤ) = -1) ∧
      (((dep_current_zamb 0 1 (2/5 : ℚ) (3/10) 7 1 1 (fun _ => ⟨0, 0, 0⟩) 0).x -
            ((fun _ => (⟨0, 0, 0⟩ : float3 ℚ)) (0 : ℤ)).x) +
          ((dep_current_zamb 0 1 (2/5 : ℚ) (3/10) 7 1 1 (fun _ => ⟨0, 0, 0⟩)
              (0 + 1)).x -
            ((fun _ => (⟨0, 0, 0⟩ : float3 ℚ)) ((0 : ℤ) + 1)).x) = 7 * (3/10) ∧
        (dep_current_zamb 0 0 (2/5 : ℚ) (3/10) 7 1 1 (fun _ => ⟨0, 0, 0⟩) 0).x -
            ((fun _ => (⟨0, 0, 0⟩ : float3 ℚ)) (0 : ℤ)).x = 7 * (3/10)) :=
  ⟨Or.inl rfl,
    claim_C1_charge_conservation_crossing 0 1 (2/5 : ℚ) (3/10) 7 1 1
      (fun _ => ⟨0, 0, 0⟩) (Or.inl rfl)⟩

theorem perm_getLast_cons_dropLast {β : Type} (l : List β) (hne : l ≠ []) :
    l.Perm (l.getLast hne :: l.dropLast) := by
  conv_lhs => rw [← List.dropLast_append_getLast hne]
  exact List.perm_append_singleton _ _

theorem perm_cons_swap_remove {β : Type} :
    ∀ (l : List β) (i : ℕ) (h : i < l.length) (hne : l ≠ []),
      l.Perm (l.get ⟨i, h⟩ :: ((l.set i (l.getLast hne)).dropLast)) := by
  intro l
  induction l with
  | nil => intro i h _; simp at h
  | cons a t ih =>
    intro i h hne
    cases i with
    | zero =>
      cases t with
      | nil => simp
      | cons b t2 =>
        have ht : (b :: t2) ≠ [] := List.cons_ne_nil b t2
        have hlast : (a :: b :: t2).getLast hne = (b :: t2).getLast ht :=
          List.getLast_cons ht
        simp only [List.get, List.set, hlast]
        refine List.Perm.cons a ?_
        have : ((b :: t2).getLast ht :: b :: t2).dropLast =
            (b :: t2).getLast ht :: (b :: t2).dropLast := rfl
        rw [this]
        exact perm_getLast_cons_dropLast (b :: t2) ht
    | succ j =>
      have hj : j < t.length := by simpa using h
      have ht : t ≠ [] := List.length_pos.mp (Nat.lt_of_le_of_lt (Nat.zero_le j) hj)
      have hlast : (a :: t).getLast hne = t.getLast ht := List.getLast_cons ht
      have hset : (a :: t).set (j + 1) (t.getLast ht) = a :: t.set j (t.getLast ht) := rfl
      have hsetne : t.set j (t.getLast ht) ≠ [] := by
        have : (t.set j (t.getLast ht)).length = t.length := by simp
        exact List.length_pos.mp (by omega)
      have hdrop : (a :: t.set j (t.getLast ht)).dropLast =
          a :: (t.set j (t.getLast ht)).dropLast :=
        List.dropLast_cons_of_ne_nil hsetne
      simp only [List.get, hlast, hset, hdrop]
      exact ((ih j hj ht).cons a).trans (List.Perm.swap _ a _)

theorem absorbScan_perm_aux {β : Type} (keep : β → Bool) :
    ∀ (n : ℕ) (l : List β) (i : ℕ), l.length - i ≤ n →
      (∀ (j : ℕ) (hj : j < l.length), j < i → keep (l.get ⟨j, hj⟩) = true) →
      (absorbScan keep l i).Perm (l.filter keep) := by
  intro n
  induction n with
  | zero =>
    intro l i hn hpre
    have hle : l.length ≤ i := by omega
    rw [absorbScan, dif_neg (by omega)]
    have hall : ∀ a ∈ l, keep a = true := by
      intro a ha
      rcases List.mem_iff_get.mp ha with ⟨⟨j, hj⟩, rfl⟩
      exact hpre j hj (by omega)
    rw [List.filter_eq_self.mpr hall]
  | succ n ih =>
    intro l i hn hpre
    rw [absorbScan]
    split
    case isFalse h =>
      have hall : ∀ a ∈ l, keep a = true := by
        intro a ha
        rcases List.mem_iff_get.mp ha with ⟨⟨j, hj⟩, rfl⟩
        exact hpre j hj (by omega)
      rw [List.filter_eq_self.mpr hall]
    case isTrue h =>
      split
      case isTrue hk =>
        apply ih l (i + 1) (by omega)
        intro j hj hlt
        rcases Nat.lt_or_ge j i with hji | hji
        · exact hpre j hj hji
        · have hje : j = i := by omega
          subst hje
          exact hk
      case isFalse hk =>
        have hne : l ≠ [] :=
          List.length_pos.mp (Nat.lt_of_le_of_lt (Nat.zero_le i) h)
        have hlen2 : ((l.set i (l.getLast hne)).dropLast).length =
            l.length - 1 := by simp
        have h2 : (absorbScan keep ((l.set i (l.getLast hne)).dropLast) i).Perm
            (((l.set i (l.getLast hne)).dropLast).filter keep) := by
          apply ih _ i (by omega)
          intro j hj hlt
          have hj2 : j < (l.set i (l.getLast hne)).length := by simp at hlen2 ⊢; omega
          have hj3 : j < l.length := by omega
          have hgl : ((l.set i (l.getLast hne)).dropLast).get ⟨j, hj⟩ =
              l.get ⟨j, hj3⟩ := by
            rw [List.get_eq_getElem, List.get_eq_getElem,
              List.getElem_dropLast _ j hj, List.getElem_set_ne (by omega) hj2]
          rw [hgl]
          exact hpre j hj3 hlt
        have hperm : l.Perm (l.get ⟨i, h⟩ :: (l.set i (l.getLast hne)).dropLast) :=
          perm_cons_swap_remove l i h hne
        have hfilter : (l.filter keep).Perm
            (((l.set i (l.getLast hne)).dropLast).filter keep) := by
          have := hperm.filter keep
          rwa [List.filter_cons_of_neg (by simpa using hk)] at this
        exact h2.trans hfilter.symm

theorem absorbScan_perm {β : Type} (keep : β → Bool) (l : List β) :
    (absorbScan keep l 0).Perm (l.filter keep) :=
  absorbScan_perm_aux keep l.length l 0 (by omega) (by omega)

theorem absorbScan_length_aux {β : Type} (keep : β → Bool) :
    ∀ (n : ℕ) (l : List β) (i : ℕ), l.length - i ≤ n →
      (absorbScan keep l i).length ≤ l.length := by
  intro n
  induction n with
  | zero =>
    intro l i hn
    rw [absorbScan, dif_neg (by omega)]
  | succ n ih =>
    intro l i hn
    rw [absorbScan]
    split
    case isFalse h => exact Nat.le_refl _
    case isTrue h =>
      split
      case isTrue hk => exact ih l (i + 1) (by omega)
      case isFalse hk =>
        have hne : l ≠ [] :=
          List.length_pos.mp (Nat.lt_of_le_of_lt (Nat.zero_le i) h)
        have hlen2 : ((l.set i (l.getLast hne)).dropLast).length =
            l.length - 1 := by simp
        have := ih ((l.set i (l.getLast hne)).dropLast) i (by omega)
        omega

/-- C4: with open/absorbing boundaries and the moving window off, the
boundary pass keeps exactly (as a multiset) the particles whose cell index
lies in `[0, nx)`, and the live count drops by the number of out-of-range
particles; in particular for cell indices `[-1, 2, 10, 5]` with `nx = 10`
exactly the particles with indices 2 and 5 survive (in unspecified order)
and the count drops from 4 by 2. -/
theorem claim_C4_absorbing_removal :
    (∀ (α : Type) (move_window_fn : List (t_part α) → List (t_part α))
        (nx : ℤ) (l : List (t_part α)),
        (boundary_pass move_window_fn false t_part_bc.PART_BC_OPEN nx l).Perm
            (l.filter (insideBox nx)) ∧
          l.length -
              (boundary_pass move_window_fn false t_part_bc.PART_BC_OPEN nx
                  l).length =
            (l.filter (fun p => !(insideBox nx p))).length) ∧
      (boundary_pass id false t_part_bc.PART_BC_OPEN 10
          [⟨-1, 0, 0, 0, 0⟩, ⟨2, 0, 0, 0, 0⟩, ⟨10, 0, 0, 0, 0⟩,
            (⟨5, 0, 0, 0, 0⟩ : t_part ℚ)]).Perm
          [⟨2, 0, 0, 0, 0⟩, ⟨5, 0, 0, 0, 0⟩] ∧
        (boundary_pass id false t_part_bc.PART_BC_OPEN 10
            [⟨-1, 0, 0, 0, 0⟩, ⟨2, 0, 0, 0, 0⟩, ⟨10, 0, 0, 0, 0⟩,
              (⟨5, 0, 0, 0, 0⟩ : t_part ℚ)]).length = 4 - 2 := by
  have hbp : ∀ (α : Type) (mw : List (t_part α) → List (t_part α)) (nx : ℤ)
      (l : List (t_part α)),
      boundary_pass mw false t_part_bc.PART_BC_OPEN nx l =
        absorbScan (insideBox nx) l 0 := by
    intro α mw nx l
    simp [boundary_pass]
  have hgen : ∀ (α : Type) (mw : List (t_part α) → List (t_part α)) (nx : ℤ)
      (l : List (t_part α)),
      (boundary_pass mw false t_part_bc.PART_BC_OPEN nx l).Perm
        (l.filter (insideBox nx)) := by
    intro α mw nx l
    rw [hbp]
    exact absorbScan_perm _ _
  have hlen : ∀ (α : Type) (mw : List (t_part α) → List (t_part α)) (nx : ℤ)
      (l : List (t_part α)),
      l.length - (boundary_pass mw false t_part_bc.PART_BC_OPEN nx l).length =
        (l.filter (fun p => !(insideBox nx p))).length := by
    intro α mw nx l
    have h1 := (hgen α mw nx l).length_eq
    have h2 := List.length_eq_length_filter_add (l := l) (insideBox nx)
    simp only at h1 h2 ⊢
    omega
  refine ⟨fun α mw nx l => ⟨hgen α mw nx l, hlen α mw nx l⟩, ?_, ?_⟩
  · have h := hgen ℚ id 10
      [⟨-1, 0, 0, 0, 0⟩, ⟨2, 0, 0, 0, 0⟩, ⟨10, 0, 0, 0, 0⟩, ⟨5, 0, 0, 0, 0⟩]
    have hf : ([⟨-1, 0, 0, 0, 0⟩, ⟨2, 0, 0, 0, 0⟩, ⟨10, 0, 0, 0, 0⟩,
        (⟨5, 0, 0, 0, 0⟩ : t_part ℚ)].filter (insideBox 10)) =
        [⟨2, 0, 0, 0, 0⟩, ⟨5, 0, 0, 0, 0⟩] := by decide
    rw [hf] at h
    exact h
  · have h := (hgen ℚ id 10
      [⟨-1, 0, 0, 0, 0⟩, ⟨2, 0, 0, 0, 0⟩, ⟨10, 0, 0, 0, 0⟩,
        ⟨5, 0, 0, 0, 0⟩]).length_eq
    have hf : ([⟨-1, 0, 0, 0, 0⟩, ⟨2, 0, 0, 0, 0⟩, ⟨10, 0, 0, 0, 0⟩,
        (⟨5, 0, 0, 0, 0⟩ : t_part ℚ)].filter (insideBox 10)).length = 2 := by
      decide
    omega

/-- C5: in periodic mode (moving window off) the boundary pass maps every
particle by the per-particle wrap of lines 230-233, which leaves the
in-cell offset and the momentum untouched, adds `nx` to a negative cell
index and subtracts `nx` from an index at or beyond `nx`; with a positive
cell count `nx`, index `-1` maps to `nx - 1` and index `nx` maps to `0`;
the particle count is unchanged. -/
theorem claim_C5_periodic_wrap {α : Type} (nx : ℤ)
    (move_window_fn : List (t_part α) → List (t_part α))
    (l : List (t_part α)) (ix : ℤ) (x ux uy uz : α) (h : 0 < nx) :
    (boundary_pass move_window_fn false t_part_bc.PART_BC_PERIODIC nx
        l).length = l.length ∧
      boundary_pass move_window_fn false t_part_bc.PART_BC_PERIODIC nx l =
        l.map (periodicOne nx) ∧
      (periodicOne nx ⟨ix, x, ux, uy, uz⟩).x = x ∧
      (periodicOne nx ⟨ix, x, ux, uy, uz⟩).ux = ux ∧
      (periodicOne nx ⟨ix, x, ux, uy, uz⟩).uy = uy ∧
      (periodicOne nx ⟨ix, x, ux, uy, uz⟩).uz = uz ∧
      (periodicOne nx ⟨ix, x, ux, uy, uz⟩).ix =
        ix + (if ix < 0 then nx else 0) - (if nx ≤ ix then nx else 0) ∧
      (periodicOne nx ⟨-1, x, ux, uy, uz⟩).ix = nx - 1 ∧
      (periodicOne nx ⟨nx, x, ux, uy, uz⟩).ix = 0 := by
  refine ⟨?_, ?_, rfl, rfl, rfl, rfl, rfl, ?_, ?_⟩
  · simp [boundary_pass]
  · simp [boundary_pass]
  · simp only [periodicOne]
    rw [if_pos (by omega : (-1 : ℤ) < 0), if_neg (by omega : ¬ nx ≤ (-1 : ℤ))]
    ring
  · simp only [periodicOne]
    rw [if_neg (by omega : ¬ nx < 0), if_pos (le_refl nx)]
    ring

/-- C5 witness: the periodic-wrap statement at `nx = 10` over the
rationals with concrete particle data. -/
theorem claim_C5_witness :
    ((0 : ℤ) < 10) ∧
      ((boundary_pass id false t_part_bc.PART_BC_PERIODIC 10
          ([⟨3, 0, 0, 0, 0⟩] : List (t_part ℚ))).length =
        ([⟨3, 0, 0, 0, 0⟩] : List (t_part ℚ)).length ∧
      boundary_pass id false t_part_bc.PART_BC_PERIODIC 10
          ([⟨3, 0, 0, 0, 0⟩] : List (t_part ℚ)) =
        ([⟨3, 0, 0, 0, 0⟩] : List (t_part ℚ)).map (periodicOne 10) ∧
      (periodicOne 10 (⟨3, 0, 0, 0, 0⟩ : t_part ℚ)).x = 0 ∧
      (periodicOne 10 (⟨3, 0, 0, 0, 0⟩ : t_part ℚ)).ux = 0 ∧
      (periodicOne 10 (⟨3, 0, 0, 0, 0⟩ : t_part ℚ)).uy = 0 ∧
      (periodicOne 10 (⟨3, 0, 0, 0, 0⟩ : t_part ℚ)).uz = 0 ∧
      (periodicOne 10 (⟨3, 0, 0, 0, 0⟩ : t_part ℚ)).ix =
        3 + (if (3 : ℤ) < 0 then 10 else 0) -
          (if (10 : ℤ) ≤ 3 then 10 else 0) ∧
      (periodicOne 10 (⟨-1, 0, 0, 0, 0⟩ : t_part ℚ)).ix = 10 - 1 ∧
      (periodicOne 10 (⟨10, 0, 0, 0, 0⟩ : t_part ℚ)).ix = 0) :=
  ⟨by decide,
    claim_C5_periodic_wrap 10 id [⟨3, 0, 0, 0, 0⟩] 3 0 0 0 0 (by decide)⟩

/-- C9: whenever the moving-window flag is set the boundary block takes the
absorbing branch regardless of the configured boundary-condition kind: the
resulting population is, as a multiset, exactly the in-domain subset of the
(window-shifted) particles — out-of-range particles are removed, not
wrapped, for any `bc_type` including periodic. -/
theorem claim_C9_moving_window_forces_absorb {α : Type}
    (move_window_fn : List (t_part α) → List (t_part α)) (bc : t_part_bc)
    (nx : ℤ) (l : List (t_part α)) :
    (boundary_pass move_window_fn true bc nx l).Perm
      ((move_window_fn l).filter (insideBox nx)) := by
  have hbp : boundary_pass move_window_fn true bc nx l =
      absorbScan (insideBox nx) (move_window_fn l) 0 := by
    simp [boundary_pass]
  rw [hbp]
  exact absorbScan_perm _ _

/-- C10: the absorbing compaction loop terminates: each iteration of the
loop body strictly decreases the variant `np - i`, the recursive scan is the
iterate of the loop body, and the final live count never exceeds the initial
one. -/
theorem claim_C10_absorb_loop_variant {β : Type} (keep : β → Bool)
    (l : List β) (i : ℕ) :
    (i < l.length →
        (absorbStep keep (l, i)).1.length - (absorbStep keep (l, i)).2 <
          l.length - i) ∧
      absorbScan keep l i =
        absorbScan keep (absorbStep keep (l, i)).1 (absorbStep keep (l, i)).2 ∧
      (absorbScan keep l i).length ≤ l.length := by
  refine ⟨?_, ?_, absorbScan_length_aux keep l.length l i (by omega)⟩
  · intro h
    rw [absorbStep, dif_pos h]
    split
    · simp
      omega
    · simp
      omega
  · rw [absorbStep]
    split
    case isTrue h =>
      rw [absorbScan, dif_pos h]
      split
      · rfl
      · rfl
    case isFalse h =>
      rfl

/-- C10 witness: the loop variant strictly decreases on a concrete
one-element state with the scan position inside the live range. -/
theorem claim_C10_witness :
    (0 < ([false] : List Bool).length) ∧
      ((absorbStep (fun b => b) (([false] : List Bool), 0)).1.length -
          (absorbStep (fun b => b) (([false] : List Bool), 0)).2 <
        ([false] : List Bool).length - 0) :=
  ⟨by decide,
    (claim_C10_absorb_loop_variant (fun b => b) [false] 0).1 (by decide)⟩

theorem borisRot_norm_sq (ut Bp : float3 ℝ) :
    (borisRot ut Bp).x * (borisRot ut Bp).x +
        (borisRot ut Bp).y * (borisRot ut Bp).y +
        (borisRot ut Bp).z * (borisRot ut Bp).z =
      ut.x * ut.x + ut.y * ut.y + ut.z * ut.z := by
  obtain ⟨a, b, c⟩ := ut
  obtain ⟨d, e, f⟩ := Bp
  have hn : (1 : ℝ) + d * d + e * e + f * f ≠ 0 := by
    nlinarith [mul_self_nonneg d, mul_self_nonneg e, mul_self_nonneg f]
  simp only [borisRot]
  field_simp
  ring

theorem pushMomentum_zeroE_norm_sq (tem : ℝ) (B u : float3 ℝ) :
    (pushMomentum tem ⟨0, 0, 0⟩ B u).x * (pushMomentum tem ⟨0, 0, 0⟩ B u).x +
        (pushMomentum tem ⟨0, 0, 0⟩ B u).y * (pushMomentum tem ⟨0, 0, 0⟩ B u).y +
        (pushMomentum tem ⟨0, 0, 0⟩ B u).z * (pushMomentum tem ⟨0, 0, 0⟩ B u).z =
      u.x * u.x + u.y * u.y + u.z * u.z := by
  obtain ⟨a, b, c⟩ := u
  simp only [pushMomentum, zero_mul, add_zero]
  exact borisRot_norm_sq ⟨a, b, c⟩ _

theorem pushMomentum_zero_fields (tem : ℝ) (u : float3 ℝ) :
    pushMomentum tem ⟨0, 0, 0⟩ ⟨0, 0, 0⟩ u = u := by
  obtain ⟨a, b, c⟩ := u
  simp [pushMomentum, borisRot]

/-- C2: with a zero interpolated electric field and an arbitrary magnetic
field, the momentum stored back by the push step has exactly the same
Euclidean norm as the input momentum: the two-cross-product Boris rotation
is norm-preserving over the reals. -/
theorem claim_C2_magnetic_push_preserves_norm (tem dt_dx q qnx : ℝ)
    (fldB : t_part ℝ → float3 ℝ) (J : ℤ → float3 ℝ) (p : t_part ℝ) :
    norm3 ⟨(pushStep tem dt_dx q qnx (fun p2 => (⟨0, 0, 0⟩, fldB p2)) J p).p2.ux,
        (pushStep tem dt_dx q qnx (fun p2 => (⟨0, 0, 0⟩, fldB p2)) J p).p2.uy,
        (pushStep tem dt_dx q qnx (fun p2 => (⟨0, 0, 0⟩, fldB p2)) J p).p2.uz⟩ =
      norm3 ⟨p.ux, p.uy, p.uz⟩ := by
  have hx : (pushStep tem dt_dx q qnx (fun p2 => (⟨0, 0, 0⟩, fldB p2)) J
      p).p2.ux = (pushMomentum tem ⟨0, 0, 0⟩ (fldB p) ⟨p.ux, p.uy, p.uz⟩).x := by
    simp [pushStep]
  have hy : (pushStep tem dt_dx q qnx (fun p2 => (⟨0, 0, 0⟩, fldB p2)) J
      p).p2.uy = (pushMomentum tem ⟨0, 0, 0⟩ (fldB p) ⟨p.ux, p.uy, p.uz⟩).y := by
    simp [pushStep]
  have hz : (pushStep tem dt_dx q qnx (fun p2 => (⟨0, 0, 0⟩, fldB p2)) J
      p).p2.uz = (pushMomentum tem ⟨0, 0, 0⟩ (fldB p) ⟨p.ux, p.uy, p.uz⟩).z := by
    simp [pushStep]
  unfold norm3
  rw [hx, hy, hz]
  exact congrArg Real.sqrt
    (pushMomentum_zeroE_norm_sq tem (fldB p) ⟨p.ux, p.uy, p.uz⟩)

/-- C3: with zero interpolated fields one push step leaves the momentum
unchanged, computes the displacement
`dx = dt_dx * u_x / sqrt(1 + |u|^2)`, and the stored offset, cell delta and
cell index satisfy `x_new + di = x + dx` and `ix_new = ix + di`. -/
theorem claim_C3_uniform_motion (tem dt_dx q qnx : ℝ) (J : ℤ → float3 ℝ)
    (p : t_part ℝ) :
    (pushStep tem dt_dx q qnx (fun _ => (⟨0, 0, 0⟩, ⟨0, 0, 0⟩)) J p).p2.ux =
        p.ux ∧
      (pushStep tem dt_dx q qnx (fun _ => (⟨0, 0, 0⟩, ⟨0, 0, 0⟩)) J p).p2.uy =
        p.uy ∧
      (pushStep tem dt_dx q qnx (fun _ => (⟨0, 0, 0⟩, ⟨0, 0, 0⟩)) J p).p2.uz =
        p.uz ∧
      (pushStep tem dt_dx q qnx (fun _ => (⟨0, 0, 0⟩, ⟨0, 0, 0⟩)) J p).dx =
        dt_dx * p.ux /
          Real.sqrt (1 + p.ux * p.ux + p.uy * p.uy + p.uz * p.uz) ∧
      (pushStep tem dt_dx q qnx (fun _ => (⟨0, 0, 0⟩, ⟨0, 0, 0⟩)) J p).p2.x +
          ((pushStep tem dt_dx q qnx (fun _ => (⟨0, 0, 0⟩, ⟨0, 0, 0⟩)) J
            p).di : ℝ) =
        p.x + (pushStep tem dt_dx q qnx (fun _ => (⟨0, 0, 0⟩, ⟨0, 0, 0⟩)) J
          p).dx ∧
      (pushStep tem dt_dx q qnx (fun _ => (⟨0, 0, 0⟩, ⟨0, 0, 0⟩)) J p).p2.ix =
        p.ix + (pushStep tem dt_dx q qnx (fun _ => (⟨0, 0, 0⟩, ⟨0, 0, 0⟩)) J
          p).di := by
  refine ⟨?_, ?_, ?_, ?_, ?_, ?_⟩
  · simp [pushStep, pushMomentum_zero_fields]
  · simp [pushStep, pushMomentum_zero_fields]
  · simp [pushStep, pushMomentum_zero_fields]
  · simp [pushStep, pushMomentum_zero_fields]
    ring
  · simp [pushStep, pushMomentum_zero_fields]
  · simp [pushStep, pushMomentum_zero_fields]

theorem advanceLoop_energy (tem dt_dx q qnx : ℝ)
    (fld : t_part ℝ → float3 ℝ × float3 ℝ) :
    ∀ (l : List (t_part ℝ)) (J : ℤ → float3 ℝ) (en : ℝ),
      (advanceLoop tem dt_dx q qnx fld l J en).2.2 =
        en + (l.map (fun p =>
          etermOf tem (fld p).1 ⟨p.ux, p.uy, p.uz⟩)).sum := by
  intro l
  induction l with
  | nil => intro J en; simp [advanceLoop]
  | cons p ps ih =>
    intro J en
    simp only [advanceLoop]
    rw [ih]
    simp [pushStep]
    ring

/-- C7: after the per-particle loop the species' stored energy equals
`q * m_q * S * dx`, where `S` is the sum over all particles of the
kinetic-energy terms `u2 / (1 + gamma)` and `m_q` is the species scalar
parameter that the spec's data model calls the charge-to-mass ratio. -/
theorem claim_C7_energy_reduction
    (move_window_fn sort_fn : List (t_part ℝ) → List (t_part ℝ))
    (s : t_species) (fld : t_part ℝ → float3 ℝ × float3 ℝ)
    (J : ℤ → float3 ℝ) :
    (spec_advance move_window_fn sort_fn s fld J).1.energy =
      s.q * s.m_q *
        ((s.part.map (fun p =>
          etermOf (temCoef s.dt s.m_q) (fld p).1 ⟨p.ux, p.uy, p.uz⟩)).sum) *
        s.dx := by
  simp only [spec_advance]
  rw [advanceLoop_energy, zero_add]
